import Mathlib

/-!
Verification development for the quillion question-generation backend.

The repository ships a Node job server (`server.js`) that shells out to a
Python pipeline (`pipeline.py`) which estimates token counts, splits study
notes into chunks, calls a remote generation model with retry/backoff,
validates and deduplicates the returned questions, and merges them into a
final question set.  The Node server itself stores jobs in an in-memory map
and extracts the pipeline's JSON result from the subprocess stdout.

Text is embedded as `List Char`; machine integers as `Nat`/`Int`.  The
Python pipeline modules are not part of the checked sources, so the
generation-side definitions below are modelled from the specification
document; the job-store and result-extraction definitions are translated
from `server.js`.
-/

/-- Plain text, embedded as a list of characters. -/
abbrev Text := List Char

/-- Whitespace test used for word splitting, blank-line detection and
trimming. -/
def isWS (c : Char) : Bool := c.isWhitespace

/-- A text is blank when every character is whitespace (the empty text is
blank). -/
def isBlank (t : Text) : Bool := t.all isWS

/-- Accumulator-style word splitter: splits on whitespace, dropping empty
fragments.  `acc` holds the characters of the current word in reverse. -/
def wordsAux : Text → Text → List Text
  | [], acc => if acc.isEmpty then [] else [acc.reverse]
  | c :: cs, acc =>
    if isWS c then
      if acc.isEmpty then wordsAux cs [] else acc.reverse :: wordsAux cs []
    else wordsAux cs (c :: acc)

/-- The whitespace-separated words of a text. -/
def wordsOf (t : Text) : List Text := wordsAux t []

/-- Number of whitespace-separated words in a text. -/
def wordCount (t : Text) : ℕ := (wordsOf t).length

/-- Modelled from the spec: the Token Estimator's rounding step,
`round(word_count * 1.3)`, computed over naturals as
`(13 * w + 5) / 10` (round half away from zero).  The Python module
implementing it (`pipeline.py`) is not among the checked sources. -/
def roundTokens (w : ℕ) : ℕ := (13 * w + 5) / 10

/-- Modelled from the spec: `estimate(text)`, the deterministic token-count
approximation `round(word_count(text) * 1.3)` used for strategy selection
and chunk sizing. -/
def estimate (t : Text) : ℕ := roundTokens (wordCount t)

/-- Split a text into lines at `'\n'` (an empty text is one empty line). -/
def splitLines : Text → List Text
  | [] => [[]]
  | c :: cs =>
    if c = '\n' then [] :: splitLines cs
    else
      match splitLines cs with
      | [] => [[c]]
      | l :: ls => (c :: l) :: ls

/-- Re-join lines with `'\n'`; inverse of `splitLines`. -/
def joinNL : List Text → Text
  | [] => []
  | [l] => l
  | l :: ls => l ++ '\n' :: joinNL ls

/-- Group consecutive non-blank lines into paragraphs.  `acc` is the text of
the paragraph being built and `inPara` records whether one is open. -/
def groupParasAux : List Text → Text → Bool → List Text
  | [], acc, inPara => if inPara then [acc] else []
  | l :: ls, acc, inPara =>
    if isBlank l then
      if inPara then acc :: groupParasAux ls [] false
      else groupParasAux ls [] false
    else
      if inPara then groupParasAux ls (acc ++ '\n' :: l) true
      else groupParasAux ls l true

/-- Modelled from the spec: the Chunker's paragraph splitter — paragraphs
are blank-line delimited runs of text. -/
def parseParagraphs (t : Text) : List Text := groupParasAux (splitLines t) [] false

/-- Token estimate of an accumulated list of paragraphs (word counts are
additive across the blank-line separators). -/
def estimateParas (ps : List Text) : ℕ := roundTokens ((ps.map wordCount).sum)

/-- Modelled from the spec: the Chunker's accumulation loop.  Paragraphs are
added to the current chunk (kept in reverse in `acc`) while the estimate of
the accumulated text stays within `target`; an overflowing paragraph closes
the current chunk and starts a new one, and a single oversized paragraph is
kept whole as its own chunk. -/
def chunkAux (target : ℕ) : List Text → List Text → List (List Text)
  | [], acc => if acc.isEmpty then [] else [acc.reverse]
  | p :: ps, acc =>
    if acc.isEmpty then chunkAux target ps [p]
    else if estimateParas (acc.reverse ++ [p]) ≤ target then chunkAux target ps (p :: acc)
    else acc.reverse :: chunkAux target ps [p]

/-- Modelled from the spec: `split(text, target_tokens)` — the ordered
chunks of a notes text, each a list of consecutive paragraphs. -/
def splitChunks (t : Text) (target : ℕ) : List (List Text) :=
  chunkAux target (parseParagraphs t) []

/-- Keep alphanumeric and whitespace characters; punctuation is dropped. -/
def stripPunct (t : Text) : Text := t.filter (fun c => c.isAlphanum || isWS c)

/-- Lowercase every character of a text. -/
def lowerText (t : Text) : Text := t.map Char.toLower

/-- Join words with single spaces. -/
def joinWords : List Text → Text
  | [] => []
  | [w] => w
  | w :: ws => w ++ ' ' :: joinWords ws

/-- Modelled from the spec: `normalize_stem` — lowercase, strip punctuation,
collapse whitespace, keep the first 12 words, join with single spaces. -/
def normalizeStem (t : Text) : Text :=
  joinWords ((wordsOf (stripPunct (lowerText t))).take 12)

/-- Modelled from the spec: `is_duplicate(candidate, seen_stems)` — a
candidate is a duplicate exactly when its normalized stem already occurs in
the seen set. -/
def isDup (t : Text) (seen : List Text) : Bool := decide (normalizeStem t ∈ seen)

/-- A multiple-choice question candidate as produced by the model. -/
structure MCQ where
  id : Text
  question : Text
  options : List Text
  answerIndex : ℤ
  explanation : Text
  deriving DecidableEq, Repr

/-- A short-answer question candidate as produced by the model. -/
structure ShortQ where
  id : Text
  prompt : Text
  expectedKeywords : List Text
  deriving DecidableEq, Repr

/-- A set of generated questions, the unit produced per call and merged by
the orchestrator. -/
structure QuestionSet where
  mcq : List MCQ
  short : List ShortQ
  deriving DecidableEq, Repr

/-- Modelled from the spec: the Question Validator's MCQ check — exactly
four options, none empty or whitespace-only, `answerIndex` within
`[0, 3]`, non-empty question text. -/
def validMCQ (q : MCQ) : Bool :=
  decide (q.options.length = 4) &&
  q.options.all (fun o => !(isBlank o)) &&
  decide (0 ≤ q.answerIndex) &&
  decide (q.answerIndex ≤ 3) &&
  !(q.question.isEmpty)

/-- Modelled from the spec: the Question Validator's short-answer check —
non-empty prompt and at least one expected keyword. -/
def validShort (s : ShortQ) : Bool :=
  !(s.prompt.isEmpty) && !(s.expectedKeywords.isEmpty)

/-- An id is well-formed when it is the given prefix character, an
underscore, and a non-empty suffix. -/
def wellFormedId (p : Char) : Text → Bool
  | c :: '_' :: rest => c = p && !(rest.isEmpty)
  | _ => false

/-- Modelled from the spec: a missing or malformed MCQ id is replaced by a
fresh identifier prefixed `q_` instead of causing rejection. -/
def fixMcqId (q : MCQ) (fresh : Text) : MCQ :=
  if wellFormedId 'q' q.id then q else { q with id := 'q' :: '_' :: fresh }

/-- Modelled from the spec: a missing or malformed short-answer id is
replaced by a fresh identifier prefixed `s_` instead of causing
rejection. -/
def fixShortId (s : ShortQ) (fresh : Text) : ShortQ :=
  if wellFormedId 's' s.id then s else { s with id := 's' :: '_' :: fresh }

/-- Outcome of one physical invocation of the remote generation endpoint:
either a parsed question set or one of the spec's failure modes. -/
inductive CallOutcome where
  | success (qs : QuestionSet)
  | timeout
  | rateLimited
  | malformed
  | unavailable
  deriving DecidableEq, Repr

/-- Failure modes surfaced by the Generation Client after its retry and
correction machinery is exhausted. -/
inductive GenError where
  | timeout
  | rateLimited
  | malformed
  | unavailable
  deriving DecidableEq, Repr

deriving instance DecidableEq for Except

/-- What one Generation Client call produced: the final result, the part of
the outcome script left for later calls, and the backoff delays slept
between attempts. -/
structure CallResult where
  res : Except GenError QuestionSet
  rest : List CallOutcome
  delays : List ℕ
  deriving DecidableEq, Repr

/-- Base delay for exponential backoff (milliseconds). -/
def backoffBase : ℕ := 1000

/-- Modelled from the spec: default maximum number of retries for a
Generation Client call. -/
def defaultMaxRetries : ℕ := 2

/-- Modelled from the spec: the Generation Client's retry/correction loop
over a script of remote outcomes.  `retries` is the number of retries still
allowed and `k` the index of the next backoff step.  Timeout and rate-limit
failures are retried with exponential backoff; a malformed response
triggers exactly one corrective follow-up call, after which any non-success
fails the call; unavailability fails immediately. -/
def genAux (base : ℕ) : ℕ → ℕ → List CallOutcome → CallResult
  | _, _, [] => ⟨.error .unavailable, [], []⟩
  | retries, k, o :: rest =>
    match o with
    | .success qs => ⟨.ok qs, rest, []⟩
    | .timeout =>
      if retries = 0 then ⟨.error .timeout, rest, []⟩
      else
        let r := genAux base (retries - 1) (k + 1) rest
        ⟨r.res, r.rest, base * 2 ^ k :: r.delays⟩
    | .rateLimited =>
      if retries = 0 then ⟨.error .rateLimited, rest, []⟩
      else
        let r := genAux base (retries - 1) (k + 1) rest
        ⟨r.res, r.rest, base * 2 ^ k :: r.delays⟩
    | .malformed =>
      match rest with
      | .success qs :: rest2 => ⟨.ok qs, rest2, []⟩
      | _ :: rest2 => ⟨.error .malformed, rest2, []⟩
      | [] => ⟨.error .malformed, [], []⟩
    | .unavailable => ⟨.error .unavailable, rest, []⟩

/-- Modelled from the spec: `generate(prompt, expected_counts)` with the
configured maximum number of retries, driven by a script of remote
outcomes. -/
def generateCall (maxRetries : ℕ) (script : List CallOutcome) : CallResult :=
  genAux backoffBase maxRetries 0 script

/-- The two top-level strategies of the Strategy Orchestrator. -/
inductive Strategy where
  | single
  | chunked
  deriving DecidableEq, Repr

/-- Terminal states of a generation run. -/
inductive Status where
  | done
  | failed
  deriving DecidableEq, Repr

/-- Metadata reported with a run's result. -/
structure RunMeta where
  strategy : Strategy
  chunks : ℕ
  tokensNotes : ℕ
  deriving DecidableEq, Repr

/-- The result of `generate_questions`: terminal status, the (possibly
capped) question set, run metadata, an error cause when failed, and the
indices of chunks whose call failed (the recorded warnings). -/
structure RunResult where
  status : Status
  questions : QuestionSet
  meta : RunMeta
  error : Option Text
  warnings : List ℕ
  deriving DecidableEq, Repr

/-- Modelled from the spec: strategy selection — single call exactly when
the estimated token count is within the configured limit. -/
def selectStrategy (tokens limit : ℕ) : Strategy :=
  if tokens ≤ limit then .single else .chunked

/-- Deduplicate MCQs against (and extending) a running seen-stem set;
first-seen wins. -/
def dedupMCQs (seen : List Text) : List MCQ → List MCQ × List Text
  | [] => ([], seen)
  | q :: qs =>
    if isDup q.question seen then dedupMCQs seen qs
    else
      let r := dedupMCQs (normalizeStem q.question :: seen) qs
      (q :: r.1, r.2)

/-- Deduplicate short questions against (and extending) a running
seen-stem set; first-seen wins. -/
def dedupShorts (seen : List Text) : List ShortQ → List ShortQ × List Text
  | [] => ([], seen)
  | s :: ss =>
    if isDup s.prompt seen then dedupShorts seen ss
    else
      let r := dedupShorts (normalizeStem s.prompt :: seen) ss
      (s :: r.1, r.2)

/-- Modelled from the spec: the reduce phase — concatenate the partial sets
in chunk order, validate each candidate, deduplicate with a shared
seen-stem set (first-seen wins), then truncate to the requested maxima. -/
def reducePhase (maxMcq maxShort : ℕ) (partials : List QuestionSet) : QuestionSet :=
  let allM := ((partials.map QuestionSet.mcq) |>.flatten).filter validMCQ
  let allS := ((partials.map QuestionSet.short) |>.flatten).filter validShort
  let dm := dedupMCQs [] allM
  let ds := dedupShorts dm.2 allS
  ⟨dm.1.take maxMcq, ds.1.take maxShort⟩

/-- Modelled from the spec: the map phase — one Generation Client call per
chunk, in order, threading the outcome script through. -/
def mapPhase (maxRetries : ℕ) : List (List Text) → List CallOutcome →
    List (Except GenError QuestionSet) × List CallOutcome
  | [], script => ([], script)
  | _ :: cs, script =>
    let r := generateCall maxRetries script
    let rs := mapPhase maxRetries cs r.rest
    (r.res :: rs.1, rs.2)

/-- Indices (from `i`) of failed map-phase results — the recorded
warnings. -/
def failedIndices : List (Except GenError QuestionSet) → ℕ → List ℕ
  | [], _ => []
  | .ok _ :: rs, i => failedIndices rs (i + 1)
  | .error _ :: rs, i => i :: failedIndices rs (i + 1)

/-- The question sets of the successful map-phase results, in chunk
order. -/
def okSets (rs : List (Except GenError QuestionSet)) : List QuestionSet :=
  rs.filterMap fun r => match r with | .ok qs => some qs | .error _ => none

/-- Human-readable cause string for a failed single call. -/
def genErrMsg : GenError → Text
  | .timeout => "generation call failed after retries: timeout".data
  | .rateLimited => "generation call failed after retries: rate limited".data
  | .malformed => "generation call failed: malformed output".data
  | .unavailable => "generation call failed: service unavailable".data

/-- Human-readable cause string when every chunk's call failed. -/
def allChunksFailedMsg : Text := "all chunks failed to generate questions".data

/-- Modelled from the spec: the single-call strategy — one Generation
Client call for the full counts; its validated, deduplicated, capped set is
the result, and a failure after retries fails the run. -/
def singleRun (maxMcq maxShort tokens maxRetries : ℕ)
    (script : List CallOutcome) : RunResult :=
  match (generateCall maxRetries script).res with
  | .ok qs =>
    { status := .done, questions := reducePhase maxMcq maxShort [qs],
      meta := ⟨.single, 1, tokens⟩, error := none, warnings := [] }
  | .error e =>
    { status := .failed, questions := ⟨[], []⟩,
      meta := ⟨.single, 1, tokens⟩, error := some (genErrMsg e), warnings := [] }

/-- Modelled from the spec: the chunked map-reduce strategy — map over the
chunks (failed chunks are skipped with a recorded warning), fail only when
every chunk failed, otherwise reduce the successful partial sets; empty
chunking means no content to generate from, not an error. -/
def chunkedRun (maxMcq maxShort tokens maxRetries : ℕ) (chunks : List (List Text))
    (script : List CallOutcome) : RunResult :=
  if chunks.isEmpty then
    { status := .done, questions := ⟨[], []⟩,
      meta := ⟨.chunked, 0, tokens⟩, error := none, warnings := [] }
  else
    let rs := (mapPhase maxRetries chunks script).1
    let oks := okSets rs
    if oks.isEmpty then
      { status := .failed, questions := ⟨[], []⟩,
        meta := ⟨.chunked, chunks.length, tokens⟩,
        error := some allChunksFailedMsg, warnings := failedIndices rs 0 }
    else
      { status := .done, questions := reducePhase maxMcq maxShort oks,
        meta := ⟨.chunked, chunks.length, tokens⟩,
        error := none, warnings := failedIndices rs 0 }

/-- Modelled from the spec: `generate_questions` — estimate the notes,
select the strategy, and run it over the outcome script. -/
def generateQuestions (notes : Text) (maxMcq maxShort limit chunkTarget maxRetries : ℕ)
    (script : List CallOutcome) : RunResult :=
  let tokens := estimate notes
  match selectStrategy tokens limit with
  | .single => singleRun maxMcq maxShort tokens maxRetries script
  | .chunked =>
    chunkedRun maxMcq maxShort tokens maxRetries (splitChunks notes chunkTarget) script

/-- A record in the server's in-memory `jobs` map (`server.js`): the
status string together with the fields the poll handler and the periodic
cleanup read.  File-system fields (`filePath`, `result` payload, …) are
external I/O and are not modelled. -/
structure JobRecord where
  status : String
  error : Option String
  createdAt : Option ℕ
  completedAt : Option ℕ
  failedAt : Option ℕ
  deriving DecidableEq, Repr

/-- The in-memory `jobs` map of `server.js`, as a partial function from job
id to record (`Map.get`/`Map.set`/`Map.delete` semantics). -/
def JobsMap := String → Option JobRecord

/-- The empty job store. -/
def emptyJobs : JobsMap := fun _ => none

/-- The writes `server.js` ever performs on the `jobs` map, plus the
periodic cleanup tick. -/
inductive JobEvent where
  | create (id : String) (t : ℕ)
  | complete (id : String) (t : ℕ)
  | fail (id : String) (msg : String) (t : ℕ)
  | cleanup (now : ℕ)

/-- JavaScript's `a || b` over an optional timestamp: `0` and a missing
value are both falsy (`rec.completedAt || rec.failedAt || rec.createdAt
|| 0` in the cleanup loop). -/
def firstTruthy (o : Option ℕ) (d : ℕ) : ℕ :=
  match o with
  | some v => if v = 0 then d else v
  | none => d

/-- The cleanup predicate of `server.js`: a finished (`done` or `error`)
job strictly older than 20 minutes (`(now - ts) / 60000 > 20`, exact over
integers). -/
def cleanupDeletes (now : ℕ) (r : JobRecord) : Bool :=
  (r.status = "done" || r.status = "error") &&
  decide (1200000 < now - firstTruthy r.completedAt (firstTruthy r.failedAt (firstTruthy r.createdAt 0)))

/-- One write to the `jobs` map, translated from `server.js`: uploads
create a `processing` record, pipeline completion overwrites it with a
fresh `done` record, pipeline failure with a fresh `error` record, and the
periodic cleanup deletes finished records older than 20 minutes. -/
def applyEvent (m : JobsMap) : JobEvent → JobsMap
  | .create id t =>
    Function.update m id
      (some { status := "processing", error := none, createdAt := some t,
              completedAt := none, failedAt := none })
  | .complete id t =>
    Function.update m id
      (some { status := "done", error := none, createdAt := none,
              completedAt := some t, failedAt := none })
  | .fail id msg t =>
    Function.update m id
      (some { status := "error", error := some msg, createdAt := none,
              completedAt := none, failedAt := some t })
  | .cleanup now => fun id =>
    match m id with
    | none => none
    | some r => if cleanupDeletes now r then none else some r

/-- The job store reached from empty after a sequence of events. -/
def runEvents (evs : List JobEvent) : JobsMap := evs.foldl applyEvent emptyJobs

/-- Responses of the poll handler `GET /jobs/:jobId` in `server.js`. -/
inductive PollResponse where
  | notFound
  | processing (id : String)
  | result (r : JobRecord)
  | errorResp (id : String) (msg : String)
  | unknownState (id : String)
  deriving DecidableEq, Repr

/-- The poll handler of `server.js`: 404 for unknown ids, then the
`processing` / `done` / `error` branches, with the `unknown state`
fallback last. -/
def pollJob (m : JobsMap) (id : String) : PollResponse :=
  match m id with
  | none => .notFound
  | some r =>
    if r.status = "processing" then .processing id
    else if r.status = "done" then .result r
    else if r.status = "error" then .errorResp id (r.error.getD "Unknown error occurred")
    else .unknownState id

/-- The `RESULT` marker `runPipeline` searches for in the pipeline's
stdout: 80 `=`, a `RESULT:` line, 80 `=`. -/
def markerPat : Text :=
  List.replicate 80 '=' ++ '\n' :: "RESULT:".data ++ '\n' :: List.replicate 80 '='

/-- Does `pat` occur at the head of `t`? -/
def startsWithPat : Text → Text → Bool
  | [], _ => true
  | _ :: _, [] => false
  | p :: ps, c :: cs => p = c && startsWithPat ps cs

/-- `String.indexOf` of `server.js`: least index at which `pat` occurs in
`t` (`i` is the index of the head of `t` in the overall text). -/
def findSubAux (pat : Text) : Text → ℕ → Option ℕ
  | [], i => if pat.isEmpty then some i else none
  | t@(_ :: cs), i => if startsWithPat pat t then some i else findSubAux pat cs (i + 1)

/-- Least index at which `pat` occurs in `t`. -/
def findSub (pat t : Text) : Option ℕ := findSubAux pat t 0

/-- `String.indexOf(ch, start)` of `server.js`: least index `≥ start` at
which `ch` occurs. -/
def findCharFrom (ch : Char) : Text → ℕ → ℕ → Option ℕ
  | [], _, _ => none
  | c :: cs, i, start =>
    if start ≤ i ∧ c = ch then some i else findCharFrom ch cs (i + 1) start

/-- The brace-counting loop of `runPipeline` (`server.js` lines 141–152):
starting at position `i` with running count `n`, increment on `{`,
decrement on `}`, and stop just past the brace that brings the count to
zero. -/
def scanBrace : Text → ℕ → ℤ → Option ℕ
  | [], _, _ => none
  | c :: cs, i, n =>
    if c = '{' then scanBrace cs (i + 1) (n + 1)
    else if c = '}' then
      if n - 1 = 0 then some (i + 1) else scanBrace cs (i + 1) (n - 1)
    else scanBrace cs (i + 1) n

/-- The marker path of `runPipeline`'s JSON extraction: find the `RESULT`
marker, the first `{` from it, and the balancing brace; an unbalanced scan
leaves the extracted string empty (`jsonEnd` stays at `jsonStart`). -/
def markerExtract (stdout : Text) : Text :=
  match findSub markerPat stdout with
  | none => []
  | some p =>
    match findCharFrom '{' stdout 0 p with
    | none => []
    | some j =>
      match scanBrace (stdout.drop j) j 0 with
      | none => []
      | some e => (stdout.drop j).take (e - j)

/-- JavaScript `String.trim`: drop whitespace from both ends. -/
def trimText (t : Text) : Text :=
  ((t.dropWhile isWS).reverse.dropWhile isWS).reverse

/-- Does a line start (after trimming) with `{`? -/
def startsWithBrace (l : Text) : Bool :=
  match trimText l with
  | '{' :: _ => true
  | _ => false

/-- Net brace count of a line: occurrences of `{` minus occurrences of
`}`. -/
def braceDelta (l : Text) : ℤ :=
  (List.count '{' l : ℤ) - (List.count '}' l : ℤ)

/-- The fallback path of `runPipeline`'s JSON extraction (`server.js` lines
158–177): scan the lines of the trimmed stdout, restart accumulation at
every line that starts with `{`, and return the accumulated lines once the
running brace count reaches zero on a later line. -/
def fallbackAux : List Text → List Text → ℤ → Bool → Text
  | [], _, _, _ => []
  | l :: ls, jl, n, inJ =>
    if startsWithBrace l then fallbackAux ls [l] (braceDelta l) true
    else if inJ then
      if n + braceDelta l = 0 then joinNL (jl ++ [l])
      else fallbackAux ls (jl ++ [l]) (n + braceDelta l) true
    else fallbackAux ls jl n false

/-- The fallback extraction over the trimmed stdout's lines. -/
def fallbackExtract (stdout : Text) : Text :=
  fallbackAux (splitLines (trimText stdout)) [] 0 false

/-- `runPipeline`'s JSON extraction: the marker path first, the line-based
fallback when it produced nothing. -/
def extractJson (stdout : Text) : Text :=
  let m := markerExtract stdout
  if m.isEmpty then fallbackExtract stdout else m

/-- The `close` handler of `runPipeline` (`server.js` lines 121–196),
parametric in the JSON parser (`JSON.parse` is a platform builtin): on exit
code 0, extract the JSON string and parse it — resolving with the parsed
value — and reject when nothing was extracted, parsing failed, or the exit
code was non-zero. -/
def closeHandler {α : Type} (parse : Text → Option α) (code : ℕ) (stdout : Text) :
    Except Text α :=
  if code = 0 then
    let s := extractJson stdout
    if s.isEmpty then .error "No valid JSON output from pipeline".data
    else
      match parse s with
      | some v => .ok v
      | none => .error "Failed to parse pipeline output".data
  else .error "Pipeline failed".data

theorem genErrMsg_ne_nil (e : GenError) : genErrMsg e ≠ [] := by
  cases e <;> decide

theorem allChunksFailedMsg_ne_nil : allChunksFailedMsg ≠ [] := by decide

theorem chunkAux_flatten (target : ℕ) :
    ∀ (ps acc : List Text), (chunkAux target ps acc).flatten = acc.reverse ++ ps := by
  intro ps
  induction ps with
  | nil =>
    intro acc
    by_cases h : acc.isEmpty
    · simp [chunkAux, h, List.isEmpty_iff.mp h]
    · simp [chunkAux, h]
  | cons p ps ih =>
    intro acc
    by_cases h : acc.isEmpty
    · have : acc = [] := List.isEmpty_iff.mp h
      subst this
      simp [chunkAux, ih]
    · by_cases h2 : estimateParas (acc.reverse ++ [p]) ≤ target
      · simp [chunkAux, h, h2, ih]
      · simp [chunkAux, h, h2, ih]

theorem groupParasAux_true_ne_nil :
    ∀ (ls : List Text) (acc : Text), groupParasAux ls acc true ≠ [] := by
  intro ls
  induction ls with
  | nil => intro acc; simp [groupParasAux]
  | cons l ls ih =>
    intro acc
    by_cases h : isBlank l
    · simp [groupParasAux, h]
    · simp [groupParasAux, h]
      exact ih _

theorem groupParasAux_nil_blank :
    ∀ (ls : List Text), groupParasAux ls [] false = [] → ∀ l ∈ ls, isBlank l = true := by
  intro ls
  induction ls with
  | nil => intro _ l hl; cases hl
  | cons l ls ih =>
    intro h l' hl'
    by_cases hb : isBlank l
    · simp [groupParasAux, hb] at h
      rcases List.mem_cons.mp hl' with rfl | hm
      · exact hb
      · exact ih h l' hm
    · exfalso
      simp [groupParasAux, hb] at h
      exact groupParasAux_true_ne_nil ls l h

theorem splitLines_ne_nil : ∀ t : Text, splitLines t ≠ [] := by
  intro t
  cases t with
  | nil => simp [splitLines]
  | cons c cs =>
    by_cases h : c = '\n'
    · simp [splitLines, h]
    · simp only [splitLines, if_neg h]
      cases splitLines cs <;> simp

theorem joinNL_splitLines : ∀ t : Text, joinNL (splitLines t) = t := by
  intro t
  induction t with
  | nil => simp [splitLines, joinNL]
  | cons c cs ih =>
    by_cases h : c = '\n'
    · subst h
      simp [splitLines]
      cases hs : splitLines cs with
      | nil => exact absurd hs (splitLines_ne_nil cs)
      | cons l ls =>
        rw [hs] at ih
        simp [joinNL, ih]
    · simp only [splitLines, if_neg h]
      cases hs : splitLines cs with
      | nil => exact absurd hs (splitLines_ne_nil cs)
      | cons l ls =>
        rw [hs] at ih
        cases ls with
        | nil => simp [joinNL] at ih ⊢; exact ih
        | cons l2 ls2 => simp [joinNL] at ih ⊢; exact ih

theorem mem_joinNL {c : Char} :
    ∀ ls : List Text, c ∈ joinNL ls → c = '\n' ∨ ∃ l ∈ ls, c ∈ l := by
  intro ls
  induction ls with
  | nil => intro h; cases h
  | cons l ls ih =>
    intro h
    cases ls with
    | nil =>
      simp [joinNL] at h
      exact Or.inr ⟨l, by simp, h⟩
    | cons l2 ls2 =>
      simp only [joinNL] at h
      rcases List.mem_append.mp h with hl | hr
      · exact Or.inr ⟨l, by simp, hl⟩
      · rcases List.mem_cons.mp hr with rfl | hm
        · exact Or.inl rfl
        · rcases ih hm with h1 | ⟨l', hl', hc⟩
          · exact Or.inl h1
          · exact Or.inr ⟨l', by simp [hl'], hc⟩

theorem parseParagraphs_nil_allWS {t : Text} (h : parseParagraphs t = []) :
    ∀ c ∈ t, isWS c = true := by
  intro c hc
  have hblank := groupParasAux_nil_blank (splitLines t) h
  rw [← joinNL_splitLines t] at hc
  rcases mem_joinNL (splitLines t) hc with rfl | ⟨l, hl, hcl⟩
  · decide
  · have hall : ∀ c' ∈ l, isWS c' = true := by
      simpa [isBlank, List.all_eq_true] using hblank l hl
    exact hall c hcl

theorem wordsAux_nil_of_allWS :
    ∀ t : Text, (∀ c ∈ t, isWS c = true) → wordsAux t [] = [] := by
  intro t
  induction t with
  | nil => intro _; simp [wordsAux]
  | cons c cs ih =>
    intro h
    have hc : isWS c = true := h c (by simp)
    simp [wordsAux, hc]
    exact ih fun c' hc' => h c' (by simp [hc'])

theorem wordCount_eq_zero_of_paras_nil {t : Text} (h : parseParagraphs t = []) :
    wordCount t = 0 := by
  unfold wordCount wordsOf
  rw [wordsAux_nil_of_allWS t (parseParagraphs_nil_allWS h)]
  rfl

theorem parseParagraphs_ne_nil_of_lt_estimate {t : Text} {limit : ℕ}
    (h : limit < estimate t) : parseParagraphs t ≠ [] := by
  intro hnil
  have hw := wordCount_eq_zero_of_paras_nil hnil
  have : estimate t = 0 := by simp [estimate, roundTokens, hw]
  omega

theorem chunkAux_eq_nil (target : ℕ) :
    ∀ (ps acc : List Text), chunkAux target ps acc = [] → ps = [] ∧ acc = [] := by
  intro ps
  induction ps with
  | nil =>
    intro acc h
    by_cases ha : acc.isEmpty
    · exact ⟨rfl, List.isEmpty_iff.mp ha⟩
    · simp [chunkAux, ha] at h
  | cons p ps ih =>
    intro acc h
    by_cases ha : acc.isEmpty
    · simp [chunkAux, ha] at h
      exact absurd (ih [p] h).2 (by simp)
    · by_cases h2 : estimateParas (acc.reverse ++ [p]) ≤ target
      · simp [chunkAux, ha, h2] at h
        exact absurd (ih (p :: acc) h).2 (by simp)
      · simp [chunkAux, ha, h2] at h

theorem splitChunks_ne_nil_of_lt_estimate {t : Text} {limit target : ℕ}
    (h : limit < estimate t) : splitChunks t target ≠ [] := by
  intro hnil
  exact parseParagraphs_ne_nil_of_lt_estimate h (chunkAux_eq_nil target _ _ hnil).1

theorem okSets_nil_iff (rs : List (Except GenError QuestionSet)) :
    okSets rs = [] ↔ ∀ x ∈ rs, ∃ e, x = .error e := by
  induction rs with
  | nil => simp [okSets]
  | cons x rs ih =>
    cases x with
    | ok qs => simp [okSets, List.filterMap_cons]
    | error e =>
      simp only [okSets, List.filterMap_cons] at ih ⊢
      simp [ih]

theorem mem_failedIndices :
    ∀ (rs : List (Except GenError QuestionSet)) (k i : ℕ) (e : GenError),
      rs[i]? = some (.error e) → (k + i) ∈ failedIndices rs k := by
  intro rs
  induction rs with
  | nil => intro k i e h; simp at h
  | cons x rs ih =>
    intro k i e h
    cases i with
    | zero =>
      simp at h
      subst h
      simp [failedIndices]
    | succ i =>
      simp at h
      have := ih (k + 1) i e h
      have h2 : k + (i + 1) = k + 1 + i := by omega
      cases x with
      | ok qs =>
        simp only [failedIndices]
        rw [h2]
        exact this
      | error e2 =>
        simp only [failedIndices]
        refine List.mem_cons.mpr (Or.inr ?_)
        rw [h2]
        exact this

theorem singleRun_meta (mm ms tk mr : ℕ) (script : List CallOutcome) :
    (singleRun mm ms tk mr script).meta = ⟨.single, 1, tk⟩ := by
  unfold singleRun
  cases (generateCall mr script).res <;> rfl

theorem chunkedRun_meta_strategy (mm ms tk mr : ℕ) (chunks : List (List Text))
    (script : List CallOutcome) :
    (chunkedRun mm ms tk mr chunks script).meta.strategy = .chunked := by
  by_cases h : chunks.isEmpty
  · simp [chunkedRun, h]
  · by_cases h2 : (okSets (mapPhase mr chunks script).1).isEmpty
    · simp [chunkedRun, h, h2]
    · simp [chunkedRun, h, h2]

theorem genAux_timeout_exhausts (b : ℕ) :
    ∀ (m k : ℕ) (rest : List CallOutcome),
      genAux b m k (List.replicate (m + 1) .timeout ++ rest) =
        ⟨.error .timeout, rest, (List.range m).map fun i => b * 2 ^ (k + i)⟩ := by
  intro m
  induction m with
  | zero =>
    intro k rest
    simp [genAux, List.replicate]
  | succ m ih =>
    intro k rest
    rw [List.replicate_succ, List.cons_append]
    have hin := ih (k + 1) rest
    generalize hs : List.replicate (m + 1) CallOutcome.timeout ++ rest = s at hin ⊢
    simp only [genAux, Nat.succ_ne_zero, if_false, Nat.add_sub_cancel, hin]
    congr 1
    rw [List.range_succ_eq_map, List.map_cons, List.map_map]
    simp only [Nat.add_zero]
    congr 1
    refine List.map_congr_left fun i _ => ?_
    have he : k + Nat.succ i = k + 1 + i := by omega
    simp [Function.comp, he]

theorem genAux_rateLimited_exhausts (b : ℕ) :
    ∀ (m k : ℕ) (rest : List CallOutcome),
      genAux b m k (List.replicate (m + 1) .rateLimited ++ rest) =
        ⟨.error .rateLimited, rest, (List.range m).map fun i => b * 2 ^ (k + i)⟩ := by
  intro m
  induction m with
  | zero =>
    intro k rest
    simp [genAux, List.replicate]
  | succ m ih =>
    intro k rest
    rw [List.replicate_succ, List.cons_append]
    have hin := ih (k + 1) rest
    generalize hs : List.replicate (m + 1) CallOutcome.rateLimited ++ rest = s at hin ⊢
    simp only [genAux, Nat.succ_ne_zero, if_false, Nat.add_sub_cancel, hin]
    congr 1
    rw [List.range_succ_eq_map, List.map_cons, List.map_map]
    simp only [Nat.add_zero]
    congr 1
    refine List.map_congr_left fun i _ => ?_
    have he : k + Nat.succ i = k + 1 + i := by omega
    simp [Function.comp, he]

theorem runEvents_status_inv :
    ∀ (evs : List JobEvent) (m : JobsMap),
      (∀ id r, m id = some r →
        r.status = "processing" ∨ r.status = "done" ∨ r.status = "error") →
      ∀ id r, (evs.foldl applyEvent m) id = some r →
        r.status = "processing" ∨ r.status = "done" ∨ r.status = "error" := by
  intro evs
  induction evs with
  | nil => intro m hm id r h; exact hm id r h
  | cons e evs ih =>
    intro m hm id r h
    refine ih (applyEvent m e) ?_ id r h
    intro id2 r2 h2
    cases e with
    | create id3 t =>
      simp only [applyEvent, Function.update_apply] at h2
      split at h2
      · cases h2; left; rfl
      · exact hm id2 r2 h2
    | complete id3 t =>
      simp only [applyEvent, Function.update_apply] at h2
      split at h2
      · cases h2; right; left; rfl
      · exact hm id2 r2 h2
    | fail id3 msg t =>
      simp only [applyEvent, Function.update_apply] at h2
      split at h2
      · cases h2; right; right; rfl
      · exact hm id2 r2 h2
    | cleanup now =>
      simp only [applyEvent] at h2
      cases hm2 : m id2 with
      | none => simp [hm2] at h2
      | some r3 =>
        simp only [hm2] at h2
        by_cases hd : cleanupDeletes now r3 = true
        · rw [if_pos hd] at h2; cases h2
        · rw [if_neg hd] at h2
          injection h2 with h3
          subst h3
          exact hm id2 _ hm2

theorem braceDelta_cons (c : Char) (t : Text) :
    braceDelta (c :: t) =
      braceDelta t + (if c = '{' then 1 else 0) - (if c = '}' then 1 else 0) := by
  unfold braceDelta
  by_cases h1 : c = '{'
  · subst h1
    simp [List.count_cons]
    ring
  · by_cases h2 : c = '}'
    · subst h2
      simp [List.count_cons]
      ring
    · simp [List.count_cons, h1, h2, Ne.symm h1, Ne.symm h2]

theorem findCharFrom_spec (ch : Char) :
    ∀ (t : Text) (i start j : ℕ), findCharFrom ch t i start = some j →
      i ≤ j ∧ j - i < t.length ∧ t[j - i]? = some ch := by
  intro t
  induction t with
  | nil => intro i start j h; simp [findCharFrom] at h
  | cons c cs ih =>
    intro i start j h
    simp only [findCharFrom] at h
    split at h
    · cases h
      rename_i hcond
      refine ⟨le_refl _, by simp, ?_⟩
      simp [hcond.2]
    · rcases ih (i + 1) start j h with ⟨h1, h2, h3⟩
      refine ⟨by omega, by simp; omega, ?_⟩
      have hji : j - i = (j - (i + 1)) + 1 := by omega
      rw [hji]
      simpa using h3

theorem scanBrace_spec :
    ∀ (cs : Text) (i : ℕ) (n : ℤ) (e : ℕ), 1 ≤ n → scanBrace cs i n = some e →
      ∃ L, 0 < L ∧ L ≤ cs.length ∧ e = i + L ∧
        n + braceDelta (cs.take L) = 0 ∧
        ∀ m, 0 < m → m < L → 1 ≤ n + braceDelta (cs.take m) := by
  have h11 : (if ('{' : Char) = '{' then (1 : ℤ) else 0) = 1 := by decide
  have h12 : (if ('{' : Char) = '}' then (1 : ℤ) else 0) = 0 := by decide
  have h21 : (if ('}' : Char) = '{' then (1 : ℤ) else 0) = 0 := by decide
  have h22 : (if ('}' : Char) = '}' then (1 : ℤ) else 0) = 1 := by decide
  intro cs
  induction cs with
  | nil => intro i n e _ h; simp [scanBrace] at h
  | cons c cs ih =>
    intro i n e hn h
    by_cases h1 : c = '{'
    · subst h1
      rw [scanBrace, if_pos rfl] at h
      rcases ih (i + 1) (n + 1) e (by omega) h with ⟨L, hL0, hLlen, hLe, hbal, hmin⟩
      refine ⟨L + 1, by omega, by simp; omega, by omega, ?_, ?_⟩
      · rw [List.take_succ_cons, braceDelta_cons, h11, h12]
        omega
      · intro m hm0 hmL
        cases m with
        | zero => omega
        | succ m2 =>
          rw [List.take_succ_cons, braceDelta_cons, h11, h12]
          cases Nat.eq_zero_or_pos m2 with
          | inl hz =>
            subst hz
            simp [braceDelta]
            omega
          | inr hpos =>
            have := hmin m2 hpos (by omega)
            omega
    · by_cases h2 : c = '}'
      · subst h2
        rw [scanBrace, if_neg h1, if_pos rfl] at h
        by_cases h3 : n - 1 = 0
        · rw [if_pos h3] at h
          injection h with he
          refine ⟨1, by omega, by simp, by omega, ?_, by omega⟩
          simp [braceDelta]
          omega
        · rw [if_neg h3] at h
          rcases ih (i + 1) (n - 1) e (by omega) h with ⟨L, hL0, hLlen, hLe, hbal, hmin⟩
          refine ⟨L + 1, by omega, by simp; omega, by omega, ?_, ?_⟩
          · rw [List.take_succ_cons, braceDelta_cons, h21, h22]
            omega
          · intro m hm0 hmL
            cases m with
            | zero => omega
            | succ m2 =>
              rw [List.take_succ_cons, braceDelta_cons, h21, h22]
              cases Nat.eq_zero_or_pos m2 with
              | inl hz =>
                subst hz
                simp [braceDelta]
                omega
              | inr hpos =>
                have := hmin m2 hpos (by omega)
                omega
      · rw [scanBrace, if_neg h1, if_neg h2] at h
        rcases ih (i + 1) n e hn h with ⟨L, hL0, hLlen, hLe, hbal, hmin⟩
        refine ⟨L + 1, by omega, by simp; omega, by omega, ?_, ?_⟩
        · rw [List.take_succ_cons, braceDelta_cons, if_neg h1, if_neg h2]
          omega
        · intro m hm0 hmL
          cases m with
          | zero => omega
          | succ m2 =>
            rw [List.take_succ_cons, braceDelta_cons, if_neg h1, if_neg h2]
            cases Nat.eq_zero_or_pos m2 with
            | inl hz =>
              subst hz
              simp [braceDelta]
              omega
            | inr hpos =>
              have := hmin m2 hpos (by omega)
              omega

/-- C1: the Strategy Orchestrator selects the single-call strategy iff
`estimate(notes) <= single_call_token_limit`, otherwise the chunked
map-reduce strategy; with limit 6000, notes estimated at 5000 tokens select
single and at 7000 tokens chunked. -/
theorem claim_c1_strategy_selection (notes : Text) (mm ms limit ct mr : ℕ)
    (script : List CallOutcome) :
    ((generateQuestions notes mm ms limit ct mr script).meta.strategy = Strategy.single ↔
      estimate notes ≤ limit) ∧
    ((generateQuestions notes mm ms limit ct mr script).meta.strategy = Strategy.chunked ↔
      limit < estimate notes) ∧
    selectStrategy 5000 6000 = Strategy.single ∧
    selectStrategy 7000 6000 = Strategy.chunked := by
  by_cases h : estimate notes ≤ limit
  · have hs : (generateQuestions notes mm ms limit ct mr script).meta.strategy =
        Strategy.single := by
      simp [generateQuestions, selectStrategy, h, singleRun_meta]
    refine ⟨⟨fun _ => h, fun _ => hs⟩, ⟨fun hc => ?_, fun hc => by omega⟩, by decide, by decide⟩
    rw [hs] at hc
    cases hc
  · have hs : (generateQuestions notes mm ms limit ct mr script).meta.strategy =
        Strategy.chunked := by
      simp [generateQuestions, selectStrategy, h, chunkedRun_meta_strategy]
    refine ⟨⟨fun hc => ?_, fun hc => by omega⟩, ⟨fun _ => by omega, fun _ => hs⟩,
      by decide, by decide⟩
    rw [hs] at hc
    cases hc

/-- C4: `normalize_stem` lowercases, strips punctuation, collapses
whitespace, keeps the first 12 words and joins with single spaces;
`is_duplicate` holds iff the normalized stem exactly equals a seen stem; in
particular "what is x" and "What Is X!!" normalize identically, so the
second is flagged duplicate. -/
theorem claim_c4_dedup_normalization (t : Text) (seen : List Text) :
    (isDup t seen = true ↔ normalizeStem t ∈ seen) ∧
    normalizeStem t = joinWords ((wordsOf (stripPunct (lowerText t))).take 12) ∧
    normalizeStem "What Is X!!".data = normalizeStem "what is x".data ∧
    isDup "What Is X!!".data [normalizeStem "what is x".data] = true := by
  refine ⟨?_, rfl, by decide, by decide⟩
  simp [isDup]

/-- C6: the chunks of `split(text, target_tokens)` are ordered and
non-overlapping — concatenating their paragraph spans in order reproduces
the source's paragraph sequence exactly — and empty input produces zero
chunks. -/
theorem claim_c6_chunker_roundtrip (t : Text) (target : ℕ) :
    (splitChunks t target).flatten = parseParagraphs t ∧
    splitChunks [] target = [] := by
  constructor
  · simpa using chunkAux_flatten target (parseParagraphs t) []
  · have hp : parseParagraphs [] = [] := rfl
    simp [splitChunks, hp, chunkAux]

/-- C7: `estimate(text) = round(word_count(text) * 1.3)`; it is
deterministic, non-negative, monotone in word count, and 0 on empty
text. -/
theorem claim_c7_estimator (s t : Text) :
    estimate s = (13 * wordCount s + 5) / 10 ∧
    (s = t → estimate s = estimate t) ∧
    0 ≤ estimate s ∧
    (wordCount s ≤ wordCount t → estimate s ≤ estimate t) ∧
    estimate [] = 0 := by
  refine ⟨rfl, fun h => by rw [h], Nat.zero_le _, fun h => ?_, by decide⟩
  unfold estimate roundTokens
  exact Nat.div_le_div_right (by omega)

/-- Witness for C7 at concrete texts. -/
theorem claim_c7_estimator_witness :
    estimate "ab cd".data ≤ estimate "a b c".data ∧
    estimate "ab cd".data = estimate "ab cd".data :=
  ⟨(claim_c7_estimator "ab cd".data "a b c".data).2.2.2.1 (by decide),
   (claim_c7_estimator "ab cd".data "ab cd".data).2.1 rfl⟩

/-- C8: Timeout and RateLimited failures are retried up to the configured
maximum (default 2) with exponential backoff and end in a failure, not a
partial set; a MalformedOutput failure triggers exactly one corrective
follow-up call, after which a still-malformed response fails the call. -/
theorem claim_c8_retry_policy (n : ℕ) (rest : List CallOutcome) (qs : QuestionSet) :
    generateCall n (List.replicate (n + 1) .timeout ++ rest) =
      ⟨.error .timeout, rest, (List.range n).map fun i => backoffBase * 2 ^ i⟩ ∧
    generateCall n (List.replicate (n + 1) .rateLimited ++ rest) =
      ⟨.error .rateLimited, rest, (List.range n).map fun i => backoffBase * 2 ^ i⟩ ∧
    generateCall n (.malformed :: .success qs :: rest) = ⟨.ok qs, rest, []⟩ ∧
    generateCall n (.malformed :: .malformed :: rest) = ⟨.error .malformed, rest, []⟩ ∧
    defaultMaxRetries = 2 := by
  refine ⟨?_, ?_, ?_, ?_, rfl⟩
  · simpa [generateCall] using genAux_timeout_exhausts backoffBase n 0 rest
  · simpa [generateCall] using genAux_rateLimited_exhausts backoffBase n 0 rest
  · simp [generateCall, genAux]
  · simp [generateCall, genAux]

/-- C5: the validator rejects an MCQ exactly when the options count is not
4, an option is blank, the answer index is outside `[0, 3]`, or the
question is empty, and rejects a short question exactly when the prompt or
keyword list is empty; a missing or malformed id is regenerated with the
`q_`/`s_` prefix instead of causing rejection. -/
theorem claim_c5_validator :
    (∀ q : MCQ, validMCQ q = false ↔
      (q.options.length ≠ 4 ∨ (∃ o ∈ q.options, isBlank o = true) ∨
       q.answerIndex < 0 ∨ 3 < q.answerIndex ∨ q.question = [])) ∧
    (∀ s : ShortQ, validShort s = false ↔ (s.prompt = [] ∨ s.expectedKeywords = [])) ∧
    (∀ (q : MCQ) (i2 : Text), validMCQ { q with id := i2 } = validMCQ q) ∧
    (∀ (s : ShortQ) (i2 : Text), validShort { s with id := i2 } = validShort s) ∧
    (∀ (q : MCQ) (fresh : Text), wellFormedId 'q' q.id = false →
      (fixMcqId q fresh).id = 'q' :: '_' :: fresh) ∧
    (∀ (s : ShortQ) (fresh : Text), wellFormedId 's' s.id = false →
      (fixShortId s fresh).id = 's' :: '_' :: fresh) ∧
    (∀ (q : MCQ) (fresh : Text), validMCQ (fixMcqId q fresh) = validMCQ q) ∧
    (∀ (s : ShortQ) (fresh : Text), validShort (fixShortId s fresh) = validShort s) := by
  refine ⟨?_, ?_, fun q i2 => rfl, fun s i2 => rfl, ?_, ?_, ?_, ?_⟩
  · intro q
    have hiff : validMCQ q = true ↔
        (q.options.length = 4 ∧ (∀ o ∈ q.options, isBlank o = false) ∧
         0 ≤ q.answerIndex ∧ q.answerIndex ≤ 3 ∧ ¬ q.question = []) := by
      simp [validMCQ, List.all_eq_true, List.isEmpty_iff, and_assoc]
    constructor
    · intro hf
      by_contra hc
      push_neg at hc
      obtain ⟨h1, h2, h3, h4, h5⟩ := hc
      have ht : validMCQ q = true := by
        refine hiff.mpr ⟨h1, fun o ho => ?_, by omega, by omega, h5⟩
        have := h2 o ho
        simpa using this
      rw [ht] at hf
      cases hf
    · intro hd
      cases hv : validMCQ q with
      | false => rfl
      | true =>
        exfalso
        obtain ⟨h1, h2, h3, h4, h5⟩ := hiff.mp hv
        rcases hd with hlen | ⟨o, ho, hb⟩ | hai | hai | hq
        · exact hlen h1
        · rw [h2 o ho] at hb; cases hb
        · omega
        · omega
        · exact h5 hq
  · intro s
    have hiff : validShort s = true ↔ (¬ s.prompt = [] ∧ ¬ s.expectedKeywords = []) := by
      simp [validShort, List.isEmpty_iff]
    constructor
    · intro hf
      by_contra hc
      push_neg at hc
      have ht : validShort s = true := hiff.mpr hc
      rw [ht] at hf
      cases hf
    · intro hd
      cases hv : validShort s with
      | false => rfl
      | true =>
        exfalso
        obtain ⟨h1, h2⟩ := hiff.mp hv
        rcases hd with hp | hk
        · exact h1 hp
        · exact h2 hk
  · intro q fresh h
    simp [fixMcqId, h]
  · intro s fresh h
    simp [fixShortId, h]
  · intro q fresh
    unfold fixMcqId
    split <;> rfl
  · intro s fresh
    unfold fixShortId
    split <;> rfl

/-- Witness for C5: a concrete malformed-id candidate gets a regenerated
prefixed id. -/
theorem claim_c5_validator_witness :
    (fixMcqId ⟨"bad".data, "Q".data, [], 0, []⟩ "XY".data).id = 'q' :: '_' :: "XY".data ∧
    (fixShortId ⟨[], "P".data, []⟩ "ZW".data).id = 's' :: '_' :: "ZW".data :=
  ⟨claim_c5_validator.2.2.2.2.1 ⟨"bad".data, "Q".data, [], 0, []⟩ "XY".data (by decide),
   claim_c5_validator.2.2.2.2.2.1 ⟨[], "P".data, []⟩ "ZW".data (by decide)⟩

/-- C9: every record ever stored in the jobs map has status `processing`,
`done` or `error`, so the poll handler's `unknown state` fallback is
unreachable for stored jobs; the periodic cleanup keeps every `processing`
job and deletes only finished ones. -/
theorem claim_c9_job_store_invariant :
    (∀ (evs : List JobEvent) (id : String) (r : JobRecord),
      runEvents evs id = some r →
        r.status = "processing" ∨ r.status = "done" ∨ r.status = "error") ∧
    (∀ (evs : List JobEvent) (id : String),
      pollJob (runEvents evs) id ≠ .unknownState id) ∧
    (∀ (m : JobsMap) (now : ℕ) (id : String) (r : JobRecord),
      m id = some r → r.status = "processing" →
        applyEvent m (.cleanup now) id = some r) ∧
    (∀ (m : JobsMap) (now : ℕ) (id : String) (r : JobRecord),
      m id = some r → applyEvent m (.cleanup now) id = none →
        r.status = "done" ∨ r.status = "error") := by
  have hinv : ∀ (evs : List JobEvent) (id : String) (r : JobRecord),
      runEvents evs id = some r →
        r.status = "processing" ∨ r.status = "done" ∨ r.status = "error" := by
    intro evs id r h
    refine runEvents_status_inv evs emptyJobs ?_ id r h
    intro id2 r2 h2
    simp [emptyJobs] at h2
  refine ⟨hinv, ?_, ?_, ?_⟩
  · intro evs id h
    cases hm : runEvents evs id with
    | none => simp [pollJob, hm] at h
    | some r =>
      rcases hinv evs id r hm with h1 | h1 | h1 <;> simp [pollJob, hm, h1] at h
  · intro m now id r hm hp
    have hcd : cleanupDeletes now r = false := by
      have d1 : ¬ (("processing" : String) = "done") := by decide
      have d2 : ¬ (("processing" : String) = "error") := by decide
      simp [cleanupDeletes, hp, d1, d2]
    simp [applyEvent, hm, hcd]
  · intro m now id r hm hdel
    simp only [applyEvent, hm] at hdel
    by_cases hd : cleanupDeletes now r = true
    · have := hd
      simp only [cleanupDeletes, Bool.and_eq_true, Bool.or_eq_true,
        decide_eq_true_eq] at this
      exact this.1
    · rw [if_neg hd] at hdel
      cases hdel

/-- Witness for C9: a freshly created job is stored as `processing`, the
poll handler does not fall through, and the cleanup keeps it. -/
theorem claim_c9_job_store_invariant_witness :
    ((runEvents [.create "a" 0] "a").map JobRecord.status = some "processing") ∧
    ((runEvents [.create "a" 0] "a").map JobRecord.status = some "processing" →
      True) ∧
    pollJob (runEvents [.create "a" 0]) "a" ≠ .unknownState "a" ∧
    applyEvent (runEvents [.create "a" 0]) (.cleanup 99999999) "a" =
      runEvents [.create "a" 0] "a" := by
  have hrec : runEvents [JobEvent.create "a" 0] "a" =
      some { status := "processing", error := none, createdAt := some 0,
             completedAt := none, failedAt := none } := by
    simp [runEvents, applyEvent, emptyJobs, Function.update_apply]
  refine ⟨by rw [hrec]; rfl, fun _ => trivial, ?_, ?_⟩
  · exact claim_c9_job_store_invariant.2.1 [.create "a" 0] "a"
  · rw [hrec]
    exact claim_c9_job_store_invariant.2.2.1 (runEvents [.create "a" 0]) 99999999 "a" _
      hrec rfl

/-- C2: every run ends `done` or `failed`; it is `failed`, with a non-empty
error string, exactly when every map attempt failed or the single call
failed after retries; a successful call yields `done` regardless of how
many questions survive. -/
theorem claim_c2_terminal_status (notes : Text) (mm ms limit ct mr : ℕ)
    (script : List CallOutcome) :
    ((generateQuestions notes mm ms limit ct mr script).status = .done ∨
      (generateQuestions notes mm ms limit ct mr script).status = .failed) ∧
    ((generateQuestions notes mm ms limit ct mr script).status = .failed ↔
      ((estimate notes ≤ limit ∧ ∃ e, (generateCall mr script).res = .error e) ∨
       (limit < estimate notes ∧
         ∀ x ∈ (mapPhase mr (splitChunks notes ct) script).1, ∃ e, x = .error e))) ∧
    ((generateQuestions notes mm ms limit ct mr script).status = .failed →
      ∃ msg, (generateQuestions notes mm ms limit ct mr script).error = some msg ∧
        msg ≠ []) ∧
    (∀ qs, estimate notes ≤ limit → (generateCall mr script).res = .ok qs →
      (generateQuestions notes mm ms limit ct mr script).status = .done) := by
  by_cases h : estimate notes ≤ limit
  · have hgen : generateQuestions notes mm ms limit ct mr script =
        singleRun mm ms (estimate notes) mr script := by
      simp [generateQuestions, selectStrategy, h]
    cases hc : (generateCall mr script).res with
    | ok qs =>
      have hrun : singleRun mm ms (estimate notes) mr script =
          { status := .done, questions := reducePhase mm ms [qs],
            meta := ⟨.single, 1, estimate notes⟩, error := none, warnings := [] } := by
        simp [singleRun, hc]
      rw [hgen, hrun]
      refine ⟨Or.inl rfl, ⟨(fun hcon => nomatch hcon), ?_⟩, (fun hcon => nomatch hcon),
        fun qs2 _ _ => rfl⟩
      rintro (⟨_, e, he⟩ | ⟨hlt, _⟩)
      · cases he
      · omega
    | error e =>
      have hrun : singleRun mm ms (estimate notes) mr script =
          { status := .failed, questions := ⟨[], []⟩,
            meta := ⟨.single, 1, estimate notes⟩, error := some (genErrMsg e),
            warnings := [] } := by
        simp [singleRun, hc]
      rw [hgen, hrun]
      exact ⟨Or.inr rfl, ⟨fun _ => Or.inl ⟨h, e, rfl⟩, fun _ => rfl⟩,
        fun _ => ⟨genErrMsg e, rfl, genErrMsg_ne_nil e⟩, fun qs2 _ hok => nomatch hok⟩
  · have hlt : limit < estimate notes := by omega
    have hgen : generateQuestions notes mm ms limit ct mr script =
        chunkedRun mm ms (estimate notes) mr (splitChunks notes ct) script := by
      simp [generateQuestions, selectStrategy, h]
    have hne : splitChunks notes ct ≠ [] := splitChunks_ne_nil_of_lt_estimate hlt
    have hnemp : (splitChunks notes ct).isEmpty = false := by
      cases hsc : splitChunks notes ct with
      | nil => exact absurd hsc hne
      | cons a l => rfl
    by_cases hol : okSets (mapPhase mr (splitChunks notes ct) script).1 = []
    · have hrun : chunkedRun mm ms (estimate notes) mr (splitChunks notes ct) script =
          { status := .failed, questions := ⟨[], []⟩,
            meta := ⟨.chunked, (splitChunks notes ct).length, estimate notes⟩,
            error := some allChunksFailedMsg,
            warnings := failedIndices (mapPhase mr (splitChunks notes ct) script).1 0 } := by
        simp [chunkedRun, hnemp, hol]
      rw [hgen, hrun]
      refine ⟨Or.inr rfl,
        ⟨fun _ => Or.inr ⟨hlt, (okSets_nil_iff _).mp hol⟩, fun _ => rfl⟩,
        fun _ => ⟨allChunksFailedMsg, rfl, allChunksFailedMsg_ne_nil⟩,
        fun qs2 hcon _ => absurd hcon h⟩
    · have hoemp : (okSets (mapPhase mr (splitChunks notes ct) script).1).isEmpty = false := by
        cases hsc : okSets (mapPhase mr (splitChunks notes ct) script).1 with
        | nil => exact absurd hsc hol
        | cons a l => rfl
      have hrun : chunkedRun mm ms (estimate notes) mr (splitChunks notes ct) script =
          { status := .done,
            questions := reducePhase mm ms (okSets (mapPhase mr (splitChunks notes ct) script).1),
            meta := ⟨.chunked, (splitChunks notes ct).length, estimate notes⟩,
            error := none,
            warnings := failedIndices (mapPhase mr (splitChunks notes ct) script).1 0 } := by
        simp [chunkedRun, hnemp, hoemp]
      rw [hgen, hrun]
      refine ⟨Or.inl rfl, ⟨(fun hcon => nomatch hcon), ?_⟩, (fun hcon => nomatch hcon),
        fun qs2 hcon _ => absurd hcon h⟩
      rintro (⟨hle, _⟩ | ⟨_, hall⟩)
      · omega
      · exact absurd ((okSets_nil_iff _).mpr hall) hol

/-- Witness for C2: a failing single call yields `failed` with a non-empty
error, a successful one yields `done`. -/
theorem claim_c2_terminal_status_witness :
    (∃ msg, (generateQuestions "a b".data 8 4 6000 1500 0 [.timeout]).error = some msg ∧
      msg ≠ []) ∧
    (generateQuestions "a b".data 8 4 6000 1500 0 [.success ⟨[], []⟩]).status = .done :=
  ⟨(claim_c2_terminal_status "a b".data 8 4 6000 1500 0 [.timeout]).2.2.1 (by decide),
   (claim_c2_terminal_status "a b".data 8 4 6000 1500 0 [.success ⟨[], []⟩]).2.2.2
     ⟨[], []⟩ (by decide) (by decide)⟩

/-- C3: under the chunked strategy, if at least one chunk's call succeeds
the run is `done`, merging only the successful chunks' sets, with
`meta.chunks` the total chunk count and a recorded warning for every
failed chunk; the run is `failed` only when every chunk's call fails. -/
theorem claim_c3_partial_failure (notes : Text) (mm ms limit ct mr : ℕ)
    (script : List CallOutcome) (h : limit < estimate notes) :
    ((∃ x ∈ (mapPhase mr (splitChunks notes ct) script).1, ∃ qs, x = .ok qs) →
      (generateQuestions notes mm ms limit ct mr script).status = .done ∧
      (generateQuestions notes mm ms limit ct mr script).questions =
        reducePhase mm ms (okSets (mapPhase mr (splitChunks notes ct) script).1) ∧
      (generateQuestions notes mm ms limit ct mr script).meta.chunks =
        (splitChunks notes ct).length ∧
      (generateQuestions notes mm ms limit ct mr script).warnings =
        failedIndices (mapPhase mr (splitChunks notes ct) script).1 0 ∧
      (∀ (i : ℕ) (e : GenError),
        (mapPhase mr (splitChunks notes ct) script).1[i]? = some (.error e) →
          i ∈ (generateQuestions notes mm ms limit ct mr script).warnings)) ∧
    ((generateQuestions notes mm ms limit ct mr script).status = .failed ↔
      ∀ x ∈ (mapPhase mr (splitChunks notes ct) script).1, ∃ e, x = .error e) := by
  have hnle : ¬ estimate notes ≤ limit := by omega
  have hgen : generateQuestions notes mm ms limit ct mr script =
      chunkedRun mm ms (estimate notes) mr (splitChunks notes ct) script := by
    simp [generateQuestions, selectStrategy, hnle]
  have hne : splitChunks notes ct ≠ [] := splitChunks_ne_nil_of_lt_estimate h
  have hnemp : (splitChunks notes ct).isEmpty = false := by
    cases hsc : splitChunks notes ct with
    | nil => exact absurd hsc hne
    | cons a l => rfl
  by_cases hol : okSets (mapPhase mr (splitChunks notes ct) script).1 = []
  · have hrun : chunkedRun mm ms (estimate notes) mr (splitChunks notes ct) script =
        { status := .failed, questions := ⟨[], []⟩,
          meta := ⟨.chunked, (splitChunks notes ct).length, estimate notes⟩,
          error := some allChunksFailedMsg,
          warnings := failedIndices (mapPhase mr (splitChunks notes ct) script).1 0 } := by
      simp [chunkedRun, hnemp, hol]
    rw [hgen, hrun]
    constructor
    · rintro ⟨x, hx, qs, rfl⟩
      obtain ⟨e, he⟩ := (okSets_nil_iff _).mp hol _ hx
      cases he
    · exact ⟨fun _ => (okSets_nil_iff _).mp hol, fun _ => rfl⟩
  · have hoemp : (okSets (mapPhase mr (splitChunks notes ct) script).1).isEmpty = false := by
      cases hsc : okSets (mapPhase mr (splitChunks notes ct) script).1 with
      | nil => exact absurd hsc hol
      | cons a l => rfl
    have hrun : chunkedRun mm ms (estimate notes) mr (splitChunks notes ct) script =
        { status := .done,
          questions := reducePhase mm ms (okSets (mapPhase mr (splitChunks notes ct) script).1),
          meta := ⟨.chunked, (splitChunks notes ct).length, estimate notes⟩,
          error := none,
          warnings := failedIndices (mapPhase mr (splitChunks notes ct) script).1 0 } := by
      simp [chunkedRun, hnemp, hoemp]
    rw [hgen, hrun]
    refine ⟨fun _ => ⟨rfl, rfl, rfl, rfl, fun i e hi => ?_⟩,
      ⟨(fun hcon => nomatch hcon), fun hall => absurd ((okSets_nil_iff _).mpr hall) hol⟩⟩
    simpa using mem_failedIndices _ 0 i e hi

/-- Witness for C3: four chunks, the second call times out with no retries
left, the rest succeed — the run is `done` with 4 chunks and a warning for
chunk index 1. -/
theorem claim_c3_partial_failure_witness :
    (generateQuestions "aa bb\n\ncc dd\n\nee ff\n\ngg hh".data 8 4 5 3 0
      [.success ⟨[], []⟩, .timeout, .success ⟨[], []⟩, .success ⟨[], []⟩]).status =
        .done ∧
    (generateQuestions "aa bb\n\ncc dd\n\nee ff\n\ngg hh".data 8 4 5 3 0
      [.success ⟨[], []⟩, .timeout, .success ⟨[], []⟩, .success ⟨[], []⟩]).meta.chunks = 4 ∧
    (generateQuestions "aa bb\n\ncc dd\n\nee ff\n\ngg hh".data 8 4 5 3 0
      [.success ⟨[], []⟩, .timeout, .success ⟨[], []⟩, .success ⟨[], []⟩]).warnings = [1] := by
  have hc := claim_c3_partial_failure "aa bb\n\ncc dd\n\nee ff\n\ngg hh".data 8 4 5 3 0
    [.success ⟨[], []⟩, .timeout, .success ⟨[], []⟩, .success ⟨[], []⟩] (by decide)
  obtain ⟨hdone, _, hchunks, hwarn, _⟩ :=
    hc.1 ⟨Except.ok ⟨[], []⟩, by decide, ⟨[], []⟩, rfl⟩
  refine ⟨hdone, ?_, ?_⟩
  · rw [hchunks]; decide
  · rw [hwarn]; decide

/-- C10: the pipeline close handler resolves exactly when the exit code is
0 and stdout yields an extractable, parseable JSON string; on the marker
path the extracted string runs from the first `{` after the marker to the
brace balancing it by occurrence counting, and is minimal such. -/
theorem claim_c10_run_pipeline {α : Type} (parse : Text → Option α) (code : ℕ)
    (stdout : Text) :
    ((∃ v, closeHandler parse code stdout = .ok v) ↔
      (code = 0 ∧ extractJson stdout ≠ [] ∧ (parse (extractJson stdout)).isSome = true)) ∧
    (∀ p j e, findSub markerPat stdout = some p → findCharFrom '{' stdout 0 p = some j →
      scanBrace (stdout.drop j) j 0 = some e →
        j < e ∧ e - j ≤ (stdout.drop j).length ∧
        markerExtract stdout = (stdout.drop j).take (e - j) ∧
        extractJson stdout = (stdout.drop j).take (e - j) ∧
        List.count '{' ((stdout.drop j).take (e - j)) =
          List.count '}' ((stdout.drop j).take (e - j)) ∧
        (∀ m, 0 < m → m < e - j →
          List.count '{' ((stdout.drop j).take m) ≠
            List.count '}' ((stdout.drop j).take m))) := by
  constructor
  · by_cases hcode : code = 0
    · subst hcode
      by_cases hext : (extractJson stdout).isEmpty = true
      · have hnil : extractJson stdout = [] := by
          cases hsc : extractJson stdout with
          | nil => rfl
          | cons a l => rw [hsc] at hext; cases hext
        constructor
        · rintro ⟨v, hv⟩
          simp [closeHandler, hext] at hv
        · rintro ⟨_, hne, _⟩
          exact absurd hnil hne
      · have hne : extractJson stdout ≠ [] := by
          intro hnil
          rw [hnil] at hext
          exact hext rfl
        cases hp : parse (extractJson stdout) with
        | none =>
          constructor
          · rintro ⟨v, hv⟩
            simp [closeHandler, hext, hp] at hv
          · rintro ⟨_, _, hsome⟩
            cases hsome
        | some v =>
          constructor
          · intro _
            exact ⟨rfl, hne, rfl⟩
          · intro _
            refine ⟨v, ?_⟩
            simp [closeHandler, hext, hp]
    · constructor
      · rintro ⟨v, hv⟩
        simp [closeHandler, hcode] at hv
      · rintro ⟨hc, _, _⟩
        exact absurd hc hcode
  · intro p j e hp hj he
    obtain ⟨-, hjlen, hjget⟩ := findCharFrom_spec '{' stdout 0 p j hj
    simp only [Nat.sub_zero] at hjlen hjget
    have hlt : j < stdout.length := hjlen
    have hdrop : stdout.drop j = '{' :: stdout.drop (j + 1) := by
      rw [List.drop_eq_getElem_cons hlt]
      have h2 : stdout[j] = '{' := by
        rw [List.getElem?_eq_getElem hlt] at hjget
        injection hjget
      rw [h2]
    have he2 : scanBrace (stdout.drop (j + 1)) (j + 1) 1 = some e := by
      rw [hdrop, scanBrace, if_pos rfl] at he
      simpa using he
    obtain ⟨L, hL0, hLlen, hLe, hbal, hmin⟩ :=
      scanBrace_spec (stdout.drop (j + 1)) (j + 1) (1 : ℤ) e (le_refl 1) he2
    have hej : e - j = L + 1 := by omega
    have hdlen : (stdout.drop j).length = (stdout.drop (j + 1)).length + 1 := by
      rw [hdrop]
      rfl
    have htake : (stdout.drop j).take (e - j) = '{' :: (stdout.drop (j + 1)).take L := by
      rw [hdrop, hej, List.take_succ_cons]
    have hmark : markerExtract stdout = (stdout.drop j).take (e - j) := by
      simp [markerExtract, hp, hj, he]
    have hmne : markerExtract stdout ≠ [] := by
      rw [hmark, htake]
      intro hcon
      cases hcon
    have hext : extractJson stdout = (stdout.drop j).take (e - j) := by
      rw [extractJson]
      cases hsc : (markerExtract stdout).isEmpty with
      | false => rw [hsc] at *; simp only [Bool.false_eq_true, if_false]; exact hmark
      | true =>
        exfalso
        apply hmne
        cases hsc2 : markerExtract stdout with
        | nil => rfl
        | cons a l => rw [hsc2] at hsc; cases hsc
    refine ⟨by omega, by omega, hmark, hext, ?_, ?_⟩
    · rw [htake, List.count_cons_self, List.count_cons_of_ne (by decide)]
      unfold braceDelta at hbal
      omega
    · intro m hm0 hmL
      cases m with
      | zero => omega
      | succ m2 =>
        have htm : (stdout.drop j).take (m2 + 1) = '{' :: (stdout.drop (j + 1)).take m2 := by
          rw [hdrop, List.take_succ_cons]
        rw [htm, List.count_cons_self, List.count_cons_of_ne (by decide)]
        cases Nat.eq_zero_or_pos m2 with
        | inl hz =>
          subst hz
          simp
        | inr hpos =>
          have := hmin m2 hpos (by omega)
          unfold braceDelta at this
          omega

/-- Witness for C10: marker followed by a small JSON object is extracted
exactly and is brace-balanced. -/
theorem claim_c10_run_pipeline_witness :
    markerExtract (markerPat ++ '\n' :: "{a}".data) = "{a}".data ∧
    List.count '{' "{a}".data = List.count '}' "{a}".data ∧
    (∃ v, closeHandler (fun t => some t.length) 0 (markerPat ++ '\n' :: "{a}".data) =
      .ok v) := by
  have hc := claim_c10_run_pipeline (fun t => some t.length) 0
    (markerPat ++ '\n' :: "{a}".data)
  obtain ⟨-, -, hmark, -, -, -⟩ := hc.2 0 170 173 (by decide) (by decide) (by decide)
  refine ⟨?_, by decide, ?_⟩
  · rw [hmark]; decide
  · exact hc.1.mpr ⟨rfl, by decide, rfl⟩
